import Mathlib

/-!
Word-length histogram over files: `par_word_lengths.c`.

A shallow embedding of `src/par_word_lengths.c`.

* `count_word_lengths` scans a stream one byte at a time and bumps one bucket
  per word of length `1 .. MAX_WORD_LEN`.
* `process_file` runs it on a zeroed array and writes the array to the pipe.
* `main` forks one child per file, closes its write end, sums the records it
  reads from the pipe, prints the totals and waits for the children.

C `int` values are integers; every C addition is followed by `wrapInt`, the
reduction into the 32-bit two's complement range.  The answers of the operating
system (does `fopen` succeed, which bytes does `fread` deliver, does `close`
fail, ...) are inputs of the embedding.  Each process is described by the
system calls it issues, in order (`Sys`), its standard output and its exit
status.  The drain loop of `main` is modelled for runs in which `read`
eventually returns `0` or `-1`.  The pipe itself is described a second time
byte by byte (`pipeStep`, `runPipe`), after POSIX, to relate the one `write` of
each child to the reads of the parent.
-/

namespace ParWordLengths

/-! ## Data model -/

/-- From the source: `#define MAX_WORD_LEN 25`. -/
def MAX_WORD_LEN : Nat := 25

/-- Reduction of an integer into the range of a 32-bit C `int`. -/
def wrapInt (x : Int) : Int := (x + 2147483648) % 4294967296 - 2147483648

/-- The least value of a 32-bit C `int`. -/
def INT_MIN : Int := -2147483648

/-- The greatest value of a 32-bit C `int`. -/
def INT_MAX : Int := 2147483647

/-- The predicate `isspace` of the C locale on a byte value: space, `\t`, `\n`, `\v`,
`\f`, `\r`. -/
def isspace (c : Nat) : Bool := c == 32 || (9 ≤ c && c ≤ 13)

/-- The statement `counts[i]++` on an `int` array. -/
def bump (counts : List Int) (i : Nat) : List Int :=
  counts.set i (wrapInt (counts.getD i 0 + 1))

/-- The guarded increment that appears twice in `count_word_lengths`:
`if (len > 0 && len <= MAX_WORD_LEN) counts[len - 1]++;`. -/
def tally (len : Int) (counts : List Int) : List Int :=
  if 0 < len ∧ len ≤ (MAX_WORD_LEN : Int) then bump counts (len - 1).toNat else counts

/-- The `while` loop of `count_word_lengths`, run over the bytes that `fread` delivers;
the state is the pair of `len` and the `counts` array. -/
def readLoop : List Nat → Int → List Int → Int × List Int
  | [], len, counts => (len, counts)
  | c :: cs, len, counts =>
    if isspace c then readLoop cs 0 (tally len counts)
    else readLoop cs (wrapInt (len + 1)) counts

/-- Why the first `fread` that returns `0` did so: end of file (`feof`) or a read
error (`ferror`). -/
inductive StreamEnd where
  | eof
  | error
  deriving DecidableEq, Repr

/-- An open `FILE *`: the bytes that the successive successful `fread` calls deliver, the
reason why the next `fread` returns `0`, and whether `fclose` returns `0`. -/
structure Stream where
  bytes : List Nat
  ending : StreamEnd
  closeOk : Bool
  deriving DecidableEq, Repr

/-- The function `count_word_lengths(file_name, counts)`.  The argument `file` is the answer
of `fopen` (`none` for `NULL`); the result is the return value together with the `counts`
array as the function leaves it. -/
def count_word_lengths (file : Option Stream) (counts : List Int) : Int × List Int :=
  match file with
  | none => (-1, counts)
  | some fp =>
    let st := readLoop fp.bytes 0 counts
    match fp.ending with
    | StreamEnd.error => (-1, st.2)
    | StreamEnd.eof =>
      let counts1 := tally st.1 st.2
      if fp.closeOk then (0, counts1) else (-1, counts1)

/-- The array after `memset(results, 0, sizeof(results))`. -/
def zeroCounts : List Int := List.replicate MAX_WORD_LEN 0

/-- The two ends of the pipe: `pipe_fds[0]` and `pipe_fds[1]`. -/
inductive Fd where
  | rd
  | wr
  deriving DecidableEq, Repr

/-- The system calls a process issues. -/
inductive Sys where
  | pipe
  | fork
  | close (fd : Fd)
  | write
  | read
  | wait
  deriving DecidableEq, Repr

/-- What `process_file` did: its return value, the calls it issued on the pipe and the
record that reached the pipe, if any. -/
structure FileOutcome where
  ret : Int
  trace : List Sys
  written : Option (List Int)
  deriving DecidableEq, Repr

/-- The function `process_file(file_name, out_fd)`; `writeOk` tells whether `write` returns
something else than `-1`. -/
def process_file (file : Option Stream) (writeOk : Bool) : FileOutcome :=
  let r := count_word_lengths file zeroCounts
  if r.1 ≠ 0 then ⟨-1, [], none⟩
  else if writeOk then ⟨0, [Sys.write], some r.2⟩
  else ⟨-1, [Sys.write], none⟩

/-- The answers the operating system gives to one child. -/
structure WorkerEnv where
  closeReadOk : Bool
  file : Option Stream
  writeOk : Bool
  closeWriteOk : Bool
  deriving DecidableEq, Repr

/-- What a process did: the calls it issued, the record it put on the pipe (children only),
the lines it printed and its exit status. -/
structure Outcome where
  trace : List Sys
  written : Option (List Int)
  stdout : List String
  status : Int
  deriving DecidableEq, Repr

/-- The child branch of the fork loop of `main` (`child_pid == 0`). -/
def child (w : WorkerEnv) : Outcome :=
  if w.closeReadOk then
    let p := process_file w.file w.writeOk
    if p.ret ≠ 0 then
      ⟨[Sys.close Fd.rd] ++ p.trace ++ [Sys.close Fd.wr], p.written, [], 1⟩
    else if w.closeWriteOk then
      ⟨[Sys.close Fd.rd] ++ p.trace ++ [Sys.close Fd.wr], p.written, [], 0⟩
    else
      ⟨[Sys.close Fd.rd] ++ p.trace ++ [Sys.close Fd.wr, Sys.close Fd.wr], p.written, [], 1⟩
  else
    ⟨[Sys.close Fd.rd, Sys.close Fd.rd], none, [], 1⟩

/-- The body of the drain loop of `main`:
`for (int i = 0; i < MAX_WORD_LEN; i++) results[i] += buffer[i];`. -/
def addRecord (results buffer : List Int) : List Int :=
  (List.range MAX_WORD_LEN).foldl
    (fun res i => res.set i (wrapInt (res.getD i 0 + buffer.getD i 0))) results

/-- The drain loop of `main` over the buffers delivered by the reads that return a positive
count, in the order of their arrival. -/
def drain (results : List Int) (records : List (List Int)) : List Int :=
  records.foldl addRecord results

/-- One `printf("%d-Character Words: %d\n", i, results[i - 1])`. -/
def reportLine (results : List Int) (i : Nat) : String :=
  toString i ++ "-Character Words: " ++ toString (results.getD (i - 1) 0) ++ "\n"

/-- The print loop of `main`, `for (int i = 1; i <= MAX_WORD_LEN; i++)`. -/
def report (results : List Int) : List String :=
  (List.range' 1 MAX_WORD_LEN).map (reportLine results)

/-- The status that `wait` stores: a normal exit with its code (`WIFEXITED`, `WEXITSTATUS`)
or an abnormal termination. -/
inductive WaitStatus where
  | exited (code : Nat)
  | signaled
  deriving DecidableEq, Repr

/-- The body of the wait loop of `main`: the new value of `ret_val`. -/
def joinStep (ret_val : Int) (st : WaitStatus) : Int :=
  match st with
  | WaitStatus.exited code => if code ≠ 0 then 1 else ret_val
  | WaitStatus.signaled => 1

/-- The value of the local variable `ret_val` after the wait loop over the children
`1 .. n`, starting from `int ret_val = 0`. -/
def join (status : Nat → WaitStatus) (n : Nat) : Int :=
  ((List.range' 1 n).map status).foldl joinStep 0

/-- The answers the operating system gives to the parent: `forkOk i` is whether the fork
for `argv[i]` succeeds, `records` are the buffers after each `read` that returns a positive
count, `readEnd` tells whether the loop ends on `0` or on `-1`, and `status i` is what the
`i`-th `wait` stores. -/
structure Env where
  pipeOk : Bool
  forkOk : Nat → Bool
  closeWriteOk : Bool
  records : List (List Int)
  readEnd : StreamEnd
  closeReadOk : Bool
  status : Nat → WaitStatus

/-- The fork loop as the parent runs it over the indices of `argv`: the calls issued and
whether every `fork` succeeded. -/
def spawn (forkOk : Nat → Bool) : List Nat → List Sys × Bool
  | [] => ([], true)
  | i :: is =>
    if forkOk i then (Sys.fork :: (spawn forkOk is).1, (spawn forkOk is).2)
    else ([Sys.fork], false)

/-- The function `main` as the parent process runs it, for `argc` arguments. -/
def main (argc : Nat) (env : Env) : Outcome :=
  if argc = 1 then ⟨[], none, [], 0⟩
  else if env.pipeOk then
    let sp := spawn env.forkOk (List.range' 1 (argc - 1))
    if sp.2 then
      if env.closeWriteOk then
        let results := drain zeroCounts env.records
        let reads := List.replicate (env.records.length + 1) Sys.read
        match env.readEnd with
        | StreamEnd.error =>
          ⟨Sys.pipe :: sp.1 ++ [Sys.close Fd.wr] ++ reads ++ [Sys.close Fd.rd], none, [], 1⟩
        | StreamEnd.eof =>
          if env.closeReadOk then
            let _ret_val := join env.status (argc - 1)
            ⟨Sys.pipe :: sp.1 ++ [Sys.close Fd.wr] ++ reads ++ [Sys.close Fd.rd]
                ++ List.replicate (argc - 1) Sys.wait, none, report results, 0⟩
          else
            ⟨Sys.pipe :: sp.1 ++ [Sys.close Fd.wr] ++ reads ++ [Sys.close Fd.rd], none, [], 1⟩
      else ⟨Sys.pipe :: sp.1 ++ [Sys.close Fd.wr, Sys.close Fd.rd], none, [], 1⟩
    else ⟨Sys.pipe :: sp.1 ++ [Sys.close Fd.rd, Sys.close Fd.wr], none, [], 1⟩
  else ⟨[Sys.pipe], none, [], 1⟩

/-! ## The words of a byte sequence -/

/-- The words of a byte sequence: its maximal runs of non-whitespace bytes, that is the
non-empty pieces left when the sequence is split at every whitespace byte. -/
def words (s : List Nat) : List (List Nat) :=
  (s.splitOnP isspace).filter (fun w => !w.isEmpty)

/-- The number of words of `s` of length exactly `k`. -/
def wordsOfLength (s : List Nat) (k : Nat) : Nat :=
  (words s).countP (fun w => w.length == k)

/-- The status a child leaves for `wait`: it always ends through `exit`. -/
def childStatus (w : WorkerEnv) : WaitStatus := WaitStatus.exited (child w).status.toNat

/-- The records that the children put on the pipe. -/
def emitted (ws : List WorkerEnv) : List (List Int) :=
  ws.filterMap (fun w => (child w).written)

/-- A file that opens and reads without error up to its end. -/
def readable (file : Option Stream) : Bool :=
  match file with
  | none => false
  | some fp => fp.ending == StreamEnd.eof

/-- No failure of `fclose` on a file that was read up to its end. -/
def closesCleanly (file : Option Stream) : Bool :=
  match file with
  | none => true
  | some fp => fp.ending == StreamEnd.error || fp.closeOk

/-- The histogram of a file: the array that `count_word_lengths` leaves when it is run on
the zeroed array. -/
def fileHistogram (file : Option Stream) : List Int :=
  (count_word_lengths file zeroCounts).2

/-- The sum of the entries `j` of the histograms of the readable files. -/
def readableSum (ws : List WorkerEnv) (j : Nat) : Int :=
  ((ws.filter (fun w => readable w.file)).map (fun w => (fileHistogram w.file).getD j 0)).sum

/-- A text as the bytes of its characters. -/
def bytesOf (text : String) : List Nat := text.toList.map Char.toNat

/-- A text with a word of 30 bytes between shorter words. -/
def longWordText : List Nat := bytesOf "ab xxxxxxxxxxxxxxxxxxxxxxxxxxxxxx cde"

/-- A child whose file opens and holds `a bb ccc`, with every call succeeding. -/
def goodWorker : WorkerEnv := ⟨true, some ⟨bytesOf "a bb ccc", StreamEnd.eof, true⟩, true, true⟩

/-- A child whose file does not exist: `fopen` returns `NULL`. -/
def missingWorker : WorkerEnv := ⟨true, none, true, true⟩

/-- A run on two files, the second of which does not exist; every call of the parent
succeeds, the record of the first child arrives, and the `i`-th `wait` reports child `i`. -/
def missingFileRun : Env :=
  ⟨true, fun _ => true, true, emitted [goodWorker, missingWorker], StreamEnd.eof, true,
    fun i => if i = 1 then childStatus goodWorker else childStatus missingWorker⟩

/-- A run on two files in which the parent fails to close its write end. -/
def closeFailureRun : Env :=
  ⟨true, fun _ => true, false, [], StreamEnd.eof, true, fun _ => WaitStatus.exited 0⟩

/-! ## The pipe, byte by byte -/

/-- What happens on the pipe: some child completes a `write` of the given bytes, or the
parent issues a `read` for `n` bytes. -/
inductive PipeEvent where
  | write (data : List Nat)
  | read (n : Nat)
  deriving DecidableEq, Repr

/-- One step of a pipe as POSIX describes it, on the bytes it holds.  A `write` of at most
`pipeBuf` bytes (`PIPE_BUF`) is atomic: its bytes are appended in one piece; a larger one has
no such guarantee and is left undefined.  A `read` for `n` bytes on a pipe that holds data
returns at once with the first `n` bytes, or with all of them if there are fewer; on an
empty pipe it delivers nothing.  The result is the new content and the bytes delivered. -/
def pipeStep (pipeBuf : Nat) (pipe : List Nat) :
    PipeEvent → Option (List Nat × Option (List Nat))
  | PipeEvent.write data =>
    if data.length ≤ pipeBuf then some (pipe ++ data, none) else none
  | PipeEvent.read n =>
    if pipe.isEmpty then some (pipe, none) else some (pipe.drop n, some (pipe.take n))

/-- A run of the pipe over an interleaving of writes and reads: the data delivered by the
reads that return a positive count, in order. -/
def runPipe (pipeBuf : Nat) : List PipeEvent → List Nat → Option (List (List Nat))
  | [], _ => some []
  | e :: es, pipe =>
    match pipeStep pipeBuf pipe e with
    | none => none
    | some (pipe1, none) => runPipe pipeBuf es pipe1
    | some (pipe1, some d) => (runPipe pipeBuf es pipe1).map (fun ds => d :: ds)

/-- Lengths of the runs that remain to be tallied when a run of `len` non-whitespace bytes
is pending and the bytes `s` follow: the pending run continues into the first piece. -/
def runLengths (len : Nat) (s : List Nat) : List Nat :=
  ((s.splitOnP isspace).map List.length).modifyHead (fun l => l + len)

/-! ## Arithmetic of `wrapInt` -/

theorem wrapInt_of_fits (x : Int) (h1 : -2147483648 ≤ x) (h2 : x < 2147483648) :
    wrapInt x = x := by
  unfold wrapInt; omega

theorem wrapInt_add_left (a b : Int) : wrapInt (wrapInt a + b) = wrapInt (a + b) := by
  unfold wrapInt; omega

/-! ## The read loop -/

theorem readLoop_append (s t : List Nat) (len : Int) (counts : List Int) :
    readLoop (s ++ t) len counts
      = readLoop t (readLoop s len counts).1 (readLoop s len counts).2 := by
  induction s generalizing len counts with
  | nil => rfl
  | cons c cs ih =>
    by_cases hc : isspace c = true
    · simp [readLoop, hc, ih]
    · simp [readLoop, hc, ih]

theorem tally_zero (counts : List Int) : tally 0 counts = counts := by
  simp [tally]

theorem readLoop_space (s : List Nat) (w : Nat) (hw : isspace w = true) (len : Int)
    (counts : List Int) :
    readLoop (s ++ [w]) len counts
      = (0, tally (readLoop s len counts).1 (readLoop s len counts).2) := by
  rw [readLoop_append]; simp [readLoop, hw]

theorem count_word_lengths_none (counts : List Int) :
    count_word_lengths none counts = (-1, counts) := rfl

theorem count_word_lengths_error (bytes : List Nat) (closeOk : Bool) (counts : List Int) :
    count_word_lengths (some ⟨bytes, StreamEnd.error, closeOk⟩) counts
      = (-1, (readLoop bytes 0 counts).2) := rfl

theorem count_word_lengths_eof (bytes : List Nat) (closeOk : Bool) (counts : List Int) :
    count_word_lengths (some ⟨bytes, StreamEnd.eof, closeOk⟩) counts
      = (if closeOk then 0 else -1,
          tally (readLoop bytes 0 counts).1 (readLoop bytes 0 counts).2) := by
  cases closeOk <;> rfl

theorem count_word_lengths_ret_indep (file : Option Stream) (c1 c2 : List Int) :
    (count_word_lengths file c1).1 = (count_word_lengths file c2).1 := by
  rcases file with _ | ⟨bytes, ending, closeOk⟩
  · rfl
  · cases ending
    · simp [count_word_lengths_eof]
    · rfl

theorem process_file_of_error (file : Option Stream) (writeOk : Bool)
    (h : (count_word_lengths file zeroCounts).1 ≠ 0) :
    process_file file writeOk = ⟨-1, [], none⟩ := by
  simp [process_file, h]

/-! ## Run lengths and words -/

theorem runLengths_nil (len : Nat) : runLengths len [] = [len] := by
  simp [runLengths]

theorem runLengths_zero (s : List Nat) :
    runLengths 0 s = (s.splitOnP isspace).map List.length := by
  unfold runLengths
  cases (s.splitOnP isspace).map List.length <;> simp

theorem runLengths_cons_space (len c : Nat) (cs : List Nat) (hc : isspace c = true) :
    runLengths len (c :: cs) = len :: runLengths 0 cs := by
  rw [runLengths_zero]
  simp [runLengths, hc]

theorem runLengths_cons_word (len c : Nat) (cs : List Nat) (hc : ¬ isspace c = true) :
    runLengths len (c :: cs) = runLengths (len + 1) cs := by
  unfold runLengths
  rw [List.splitOnP_cons, if_neg hc]
  rcases hsp : List.splitOnP isspace cs with _ | ⟨p, ps⟩
  · exact absurd hsp (List.splitOnP_ne_nil _ _)
  · simp; omega

theorem countP_words_eq_count (L : List (List Nat)) (k : Nat) (hk : 1 ≤ k) :
    (L.filter (fun w => !w.isEmpty)).countP (fun w => w.length == k)
      = (L.map List.length).count k := by
  induction L with
  | nil => rfl
  | cons w L ih =>
    rcases w with _ | ⟨a, w⟩
    · have : ¬ (0 = k) := by omega
      simp [List.count_cons, ih, this]
    · simp [List.count_cons, List.countP_cons, ih]

theorem wordsOfLength_eq_count (s : List Nat) (k : Nat) (hk : 1 ≤ k) :
    wordsOfLength s k = (runLengths 0 s).count k := by
  rw [runLengths_zero]
  exact countP_words_eq_count _ k hk

theorem count_runLengths_le (k : Nat) (hk : 1 ≤ k) (s : List Nat) (len : Nat) :
    (runLengths len s).count k ≤ len + s.length := by
  induction s generalizing len with
  | nil =>
    rw [runLengths_nil]
    by_cases h : len = k
    · subst h; simp; omega
    · simp [List.count_cons, h]
  | cons c cs ih =>
    by_cases hc : isspace c = true
    · rw [runLengths_cons_space len c cs hc, List.count_cons]
      have := ih 0
      by_cases h : len = k
      · subst h; simp; omega
      · simp [h]; omega
    · rw [runLengths_cons_word len c cs hc]
      have := ih (len + 1)
      simp only [List.length_cons]; omega

/-! ## The buckets after the read loop -/

theorem length_bump (counts : List Int) (i : Nat) : (bump counts i).length = counts.length := by
  simp [bump]

theorem length_tally (len : Int) (counts : List Int) :
    (tally len counts).length = counts.length := by
  unfold tally; split
  · exact length_bump _ _
  · rfl

theorem getD_bump (counts : List Int) (i j : Nat) (hi : i < counts.length) :
    (bump counts i).getD j 0
      = if i = j then wrapInt (counts.getD j 0 + 1) else counts.getD j 0 := by
  unfold bump
  rw [List.getD_eq_getElem?_getD, List.getElem?_set]
  by_cases hij : i = j
  · subst hij; simp [hi]
  · simp [hij]

theorem getD_tally (counts : List Int) (l j : Nat) (hj : j < MAX_WORD_LEN)
    (hsize : counts.length = MAX_WORD_LEN) :
    (tally (l : Int) counts).getD j 0
      = if l = j + 1 then wrapInt (counts.getD j 0 + 1) else counts.getD j 0 := by
  unfold tally
  have h25 : MAX_WORD_LEN = 25 := rfl
  by_cases hl : 0 < (l : Int) ∧ (l : Int) ≤ (MAX_WORD_LEN : Int)
  · have hidx : ((l : Int) - 1).toNat = l - 1 := by omega
    have hlt : l - 1 < counts.length := by rw [hsize, h25]; rw [h25] at hl; omega
    rw [if_pos hl, hidx, getD_bump _ _ _ hlt]
    by_cases hlj : l = j + 1
    · have : l - 1 = j := by omega
      simp [hlj]
    · have : ¬ (l - 1 = j) := by omega
      simp [hlj, this]
  · have : ¬ (l = j + 1) := by
      intro h; apply hl; rw [h25] at hj ⊢; omega
    rw [if_neg hl, if_neg this]

theorem getD_foldl_tally (ls : List Nat) (counts : List Int) (j : Nat)
    (hj : j < MAX_WORD_LEN) (hsize : counts.length = MAX_WORD_LEN) :
    (ls.foldl (fun (c : List Int) (l : Nat) => tally (l : Int) c) counts).getD j 0
      = if ls.count (j + 1) = 0 then counts.getD j 0
        else wrapInt (counts.getD j 0 + (ls.count (j + 1) : Int)) := by
  induction ls generalizing counts with
  | nil => simp
  | cons l ls ih =>
    rw [List.foldl_cons, ih _ (by rw [length_tally]; exact hsize), getD_tally _ _ _ hj hsize,
      List.count_cons]
    by_cases hl : l = j + 1
    · subst hl
      by_cases h0 : List.count (j + 1) ls = 0
      · simp [h0]
      · simp [h0, wrapInt_add_left]; congr 1; omega
    · simp [hl]

theorem length_foldl_tally (ls : List Nat) (counts : List Int) :
    (ls.foldl (fun (c : List Int) (l : Nat) => tally (l : Int) c) counts).length = counts.length := by
  induction ls generalizing counts with
  | nil => rfl
  | cons l ls ih => rw [List.foldl_cons, ih, length_tally]

theorem readLoop_tally_eq (s : List Nat) (n : Nat) (counts : List Int)
    (h : n + s.length < 2147483648) :
    tally (readLoop s (n : Int) counts).1 (readLoop s (n : Int) counts).2
      = (runLengths n s).foldl (fun (c : List Int) (l : Nat) => tally (l : Int) c) counts := by
  induction s generalizing n counts with
  | nil => simp [readLoop, runLengths_nil]
  | cons c cs ih =>
    simp only [List.length_cons] at h
    by_cases hc : isspace c = true
    · have := ih 0 (tally (n : Int) counts) (by omega)
      simp only [Nat.cast_zero] at this
      rw [runLengths_cons_space n c cs hc, List.foldl_cons, ← this]
      simp [readLoop, hc]
    · have hw : wrapInt ((n : Int) + 1) = ((n + 1 : Nat) : Int) := by
        rw [wrapInt_of_fits] <;> push_cast <;> omega
      rw [runLengths_cons_word n c cs hc, ← ih (n + 1) counts (by omega), ← hw]
      simp [readLoop, hc]

/-- The bucket `j` after a run of `count_word_lengths` over a stream that ends at end of file. -/
theorem getD_count_word_lengths (s : List Nat) (closeOk : Bool) (counts : List Int) (j : Nat)
    (hlen : s.length < 2147483648) (hj : j < MAX_WORD_LEN)
    (hsize : counts.length = MAX_WORD_LEN) :
    (count_word_lengths (some ⟨s, StreamEnd.eof, closeOk⟩) counts).2.getD j 0
      = if wordsOfLength s (j + 1) = 0 then counts.getD j 0
        else wrapInt (counts.getD j 0 + (wordsOfLength s (j + 1) : Int)) := by
  rw [count_word_lengths_eof]
  have := readLoop_tally_eq s 0 counts (by omega)
  simp only [Nat.cast_zero] at this
  simp only [this]
  rw [getD_foldl_tally _ _ _ hj hsize, wordsOfLength_eq_count s (j + 1) (by omega)]

/-! ## Sums over the buckets -/

theorem sum_indicator (m n : Nat) :
    ((List.range m).map (fun j => if n = j + 1 then 1 else 0)).sum
      = if 1 ≤ n ∧ n ≤ m then 1 else 0 := by
  induction m with
  | zero =>
    have : ¬ (1 ≤ n ∧ n ≤ 0) := by omega
    rw [if_neg this]; rfl
  | succ m ih =>
    rw [List.range_succ, List.map_append, List.sum_append, ih]
    by_cases h1 : n = m + 1
    · subst h1; simp
    · by_cases h2 : 1 ≤ n ∧ n ≤ m
      · have : 1 ≤ n ∧ n ≤ m + 1 := by omega
        simp [h1, h2, this]
      · have : ¬ (1 ≤ n ∧ n ≤ m + 1) := by omega
        simp [h1, h2, this]

theorem sum_countP_length (m : Nat) (ws : List (List Nat)) (hne : ∀ w ∈ ws, w ≠ []) :
    ((List.range m).map (fun j => ws.countP (fun w => w.length == j + 1))).sum
      = ws.countP (fun w => decide (w.length ≤ m)) := by
  induction ws with
  | nil => simp
  | cons w ws ih =>
    have hw : 1 ≤ w.length := by
      have := hne w (List.mem_cons_self _ _)
      cases w with
      | nil => exact absurd rfl this
      | cons a w => simp
    have ih1 := ih (fun v hv => hne v (List.mem_cons_of_mem _ hv))
    simp only [List.countP_cons, List.sum_map_add, ih1, beq_iff_eq, decide_eq_true_eq]
    rw [sum_indicator]
    by_cases h : w.length ≤ m
    · simp [h, hw]
    · simp [h]

theorem mem_words_ne_nil (s : List Nat) : ∀ w ∈ words s, w ≠ [] := by
  intro w hw
  unfold words at hw
  rw [List.mem_filter] at hw
  intro h
  rw [h] at hw
  simp at hw

theorem sum_wordsOfLength (s : List Nat) :
    ((List.range MAX_WORD_LEN).map (fun j => wordsOfLength s (j + 1))).sum
      = (words s).countP (fun w => decide (w.length ≤ MAX_WORD_LEN)) :=
  sum_countP_length MAX_WORD_LEN (words s) (mem_words_ne_nil s)

theorem wordsOfLength_le_length (s : List Nat) (k : Nat) (hk : 1 ≤ k) :
    wordsOfLength s k ≤ s.length := by
  rw [wordsOfLength_eq_count s k hk]
  have := count_runLengths_le k hk s 0
  omega

/-! ## Words that are too long -/

theorem readLoop_word (long : List Nat) (n : Nat) (counts : List Int)
    (hword : ∀ c ∈ long, isspace c = false) (h : n + long.length < 2147483648) :
    readLoop long (n : Int) counts = (((n + long.length : Nat) : Int), counts) := by
  induction long generalizing n with
  | nil => simp [readLoop]
  | cons c cs ih =>
    simp only [List.length_cons] at h
    have hc : isspace c = false := hword c (List.mem_cons_self _ _)
    have hw : wrapInt ((n : Int) + 1) = ((n + 1 : Nat) : Int) := by
      rw [wrapInt_of_fits] <;> push_cast <;> omega
    have := ih (n + 1) (fun d hd => hword d (List.mem_cons_of_mem _ hd)) (by omega)
    simp only [readLoop, hc, hw, this, List.length_cons]
    simp
    omega

theorem readLoop_counts_of_word (pending : List Nat) (len : Int) (counts : List Int)
    (hword : ∀ c ∈ pending, isspace c = false) :
    (readLoop pending len counts).2 = counts := by
  induction pending generalizing len with
  | nil => rfl
  | cons c cs ih =>
    have hc : isspace c = false := hword c (List.mem_cons_self _ _)
    simp only [readLoop, hc]
    exact ih _ (fun d hd => hword d (List.mem_cons_of_mem _ hd))

theorem readLoop_skip_long (a b long : List Nat) (w1 w2 : Nat) (counts : List Int)
    (h1 : isspace w1 = true) (h2 : isspace w2 = true)
    (hword : ∀ c ∈ long, isspace c = false)
    (hlong : MAX_WORD_LEN < long.length) (hlt : long.length < 2147483648) :
    readLoop (a ++ [w1] ++ long ++ [w2] ++ b) 0 counts
      = readLoop (a ++ [w1] ++ [w2] ++ b) 0 counts := by
  have h25 : MAX_WORD_LEN = 25 := rfl
  have hskip : ∀ c : List Int, tally ((long.length : Nat) : Int) c = c := by
    intro c
    unfold tally
    rw [if_neg]
    rw [h25] at hlong ⊢
    omega
  have hl := fun c => readLoop_word long 0 c hword (by omega)
  simp only [Nat.cast_zero, Nat.zero_add] at hl
  simp only [List.append_assoc, readLoop_append]
  simp only [List.singleton_append, List.cons_append, List.nil_append, readLoop, h1, h2,
    if_true, hl, hskip, tally_zero]

theorem getD_zeroCounts (j : Nat) : zeroCounts.getD j 0 = 0 := by
  unfold zeroCounts
  rw [List.getD_eq_getElem?_getD, List.getElem?_replicate]
  split <;> rfl

theorem bucket_increment (s : List Nat) (closeOk : Bool) (counts : List Int) (j : Nat)
    (hlen : s.length < 2147483648) (hj : j < MAX_WORD_LEN)
    (hsize : counts.length = MAX_WORD_LEN)
    (hfit : INT_MIN ≤ counts.getD j 0 ∧
      counts.getD j 0 + (wordsOfLength s (j + 1) : Int) ≤ INT_MAX) :
    (count_word_lengths (some ⟨s, StreamEnd.eof, closeOk⟩) counts).2.getD j 0
      = counts.getD j 0 + (wordsOfLength s (j + 1) : Int) := by
  rw [getD_count_word_lengths s closeOk counts j hlen hj hsize]
  unfold INT_MIN INT_MAX at hfit
  by_cases h0 : wordsOfLength s (j + 1) = 0
  · simp [h0]
  · rw [if_neg h0, wrapInt_of_fits] <;> omega

/-! ## The drain loop -/

theorem getD_set_eq (l : List Int) (i j : Nat) (a : Int) (hi : i < l.length) :
    (l.set i a).getD j 0 = if i = j then a else l.getD j 0 := by
  rw [List.getD_eq_getElem?_getD, List.getElem?_set]
  by_cases hij : i = j
  · subst hij; simp [hi]
  · simp [hij]

theorem addRecord_range (results buffer : List Int) (m : Nat) (hm : m ≤ results.length) :
    ((List.range m).foldl
        (fun res i => res.set i (wrapInt (res.getD i 0 + buffer.getD i 0))) results).length
      = results.length
    ∧ ∀ j, ((List.range m).foldl
        (fun res i => res.set i (wrapInt (res.getD i 0 + buffer.getD i 0))) results).getD j 0
      = if j < m then wrapInt (results.getD j 0 + buffer.getD j 0) else results.getD j 0 := by
  induction m with
  | zero => simp
  | succ m ih =>
    obtain ⟨hl, hg⟩ := ih (by omega)
    rw [List.range_succ, List.foldl_append]
    simp only [List.foldl_cons, List.foldl_nil, List.length_set]
    refine ⟨hl, ?_⟩
    intro j
    rw [getD_set_eq _ _ _ _ (by omega), hg m, hg j]
    by_cases hjm : m = j
    · subst hjm; simp
    · by_cases hlt : j < m
      · have : j < m + 1 := by omega
        simp [hjm, hlt, this]
      · have : ¬ j < m + 1 := by omega
        simp [hjm, hlt, this]

theorem length_addRecord (results buffer : List Int) (h : results.length = MAX_WORD_LEN) :
    (addRecord results buffer).length = MAX_WORD_LEN := by
  unfold addRecord
  rw [(addRecord_range results buffer MAX_WORD_LEN (by omega)).1, h]

theorem getD_addRecord (results buffer : List Int) (j : Nat)
    (h : results.length = MAX_WORD_LEN) (hj : j < MAX_WORD_LEN) :
    (addRecord results buffer).getD j 0 = wrapInt (results.getD j 0 + buffer.getD j 0) := by
  unfold addRecord
  rw [(addRecord_range results buffer MAX_WORD_LEN (by omega)).2, if_pos hj]

theorem drain_nil (results : List Int) : drain results [] = results := by
  unfold drain; rw [List.foldl_nil]

theorem drain_cons (results r : List Int) (rs : List (List Int)) :
    drain results (r :: rs) = drain (addRecord results r) rs := by
  unfold drain; rw [List.foldl_cons]

theorem length_drain (records : List (List Int)) (results : List Int)
    (h : results.length = MAX_WORD_LEN) : (drain results records).length = MAX_WORD_LEN := by
  induction records generalizing results with
  | nil => rw [drain_nil]; exact h
  | cons r rs ih => rw [drain_cons]; exact ih _ (length_addRecord results r h)

theorem getD_drain_wrapped (records : List (List Int)) (results : List Int) (x : Int) (j : Nat)
    (h : results.length = MAX_WORD_LEN) (hj : j < MAX_WORD_LEN)
    (hx : results.getD j 0 = wrapInt x) :
    (drain results records).getD j 0
      = wrapInt (x + (records.map (fun r => r.getD j 0)).sum) := by
  induction records generalizing results x with
  | nil => rw [drain_nil, hx]; simp
  | cons r rs ih =>
    have step : (addRecord results r).getD j 0 = wrapInt (x + r.getD j 0) := by
      rw [getD_addRecord results r j h hj, hx, wrapInt_add_left]
    rw [drain_cons, ih (addRecord results r) (x + r.getD j 0) (length_addRecord results r h) step,
      List.map_cons, List.sum_cons, add_assoc]

theorem getD_drain_zero (records : List (List Int)) (j : Nat) (hj : j < MAX_WORD_LEN) :
    (drain zeroCounts records).getD j 0 = wrapInt ((records.map (fun r => r.getD j 0)).sum) := by
  have := getD_drain_wrapped records zeroCounts 0 j (by simp [zeroCounts]) hj
    (by rw [getD_zeroCounts]; rfl)
  simpa using this

theorem eq_of_getD_eq (l1 l2 : List Int) (n : Nat) (h1 : l1.length = n) (h2 : l2.length = n)
    (h : ∀ j < n, l1.getD j 0 = l2.getD j 0) : l1 = l2 := by
  apply List.ext_getElem (by rw [h1, h2])
  intro j hj1 hj2
  have := h j (by omega)
  rwa [List.getD_eq_getElem _ _ hj1, List.getD_eq_getElem _ _ hj2] at this

theorem drain_perm (recs1 recs2 : List (List Int)) (hperm : recs1.Perm recs2) :
    drain zeroCounts recs1 = drain zeroCounts recs2 := by
  apply eq_of_getD_eq _ _ MAX_WORD_LEN (length_drain _ _ (by simp [zeroCounts]))
    (length_drain _ _ (by simp [zeroCounts]))
  intro j hj
  rw [getD_drain_zero _ j hj, getD_drain_zero _ j hj,
    (hperm.map (fun r => r.getD j 0)).sum_eq]

/-! ## The parent process -/

theorem spawn_ok (forkOk : Nat → Bool) (l : List Nat) (h : ∀ i ∈ l, forkOk i = true) :
    spawn forkOk l = (List.replicate l.length Sys.fork, true) := by
  induction l with
  | nil => rfl
  | cons i is ih =>
    have hi := h i (List.mem_cons_self _ _)
    have := ih (fun k hk => h k (List.mem_cons_of_mem _ hk))
    simp [spawn, hi, this, List.replicate_succ]

theorem spawn_trace (forkOk : Nat → Bool) (l : List Nat) (h : (spawn forkOk l).2 = true) :
    (spawn forkOk l).1 = List.replicate l.length Sys.fork := by
  induction l with
  | nil => rfl
  | cons i is ih =>
    by_cases hi : forkOk i = true
    · simp only [spawn, hi, if_true] at h ⊢
      rw [ih h, List.length_cons, List.replicate_succ]
    · simp [spawn, hi] at h

theorem spawn_forks_only (forkOk : Nat → Bool) (l : List Nat) :
    ∀ x ∈ (spawn forkOk l).1, x = Sys.fork := by
  induction l with
  | nil => intro x hx; simp [spawn] at hx
  | cons i is ih =>
    intro x hx
    by_cases hi : forkOk i = true
    · simp only [spawn, hi, if_true, List.mem_cons] at hx
      rcases hx with hx | hx
      · exact hx
      · exact ih x hx
    · simp only [spawn, hi] at hx
      simpa using hx

/-- The run of the parent in which no call of its own fails. -/
theorem main_of_no_failure (argc : Nat) (env : Env) (hargc : argc ≠ 1)
    (hpipe : env.pipeOk = true) (hfork : ∀ i, 1 ≤ i → i < argc → env.forkOk i = true)
    (hclw : env.closeWriteOk = true) (hread : env.readEnd = StreamEnd.eof)
    (hclr : env.closeReadOk = true) :
    main argc env
      = ⟨Sys.pipe :: List.replicate (argc - 1) Sys.fork ++ [Sys.close Fd.wr]
            ++ List.replicate (env.records.length + 1) Sys.read ++ [Sys.close Fd.rd]
            ++ List.replicate (argc - 1) Sys.wait,
          none, report (drain zeroCounts env.records), 0⟩ := by
  have hsp : spawn env.forkOk (List.range' 1 (argc - 1))
      = (List.replicate (argc - 1) Sys.fork, true) := by
    have := spawn_ok env.forkOk (List.range' 1 (argc - 1)) (by
      intro i hi
      rw [List.mem_range'_1] at hi
      exact hfork i hi.1 (by omega))
    simpa using this
  unfold main
  simp only [hargc, hpipe, hsp, hclw, hread, hclr, if_true, if_false]

theorem length_report (results : List Int) : (report results).length = MAX_WORD_LEN := by
  simp [report]

theorem report_line (results : List Int) (k : Nat) (h1 : 1 ≤ k) (hk : k ≤ MAX_WORD_LEN) :
    (report results)[k - 1]? = some (reportLine results k) := by
  unfold report
  rw [List.getElem?_map, List.getElem?_range' _ _ (by omega)]
  simp
  congr 1
  omega

theorem main_trace_shape (argc : Nat) (env : Env) :
    Sys.read ∉ (main argc env).trace
    ∨ (env.closeWriteOk = true ∧ ∃ tail, (main argc env).trace
        = (Sys.pipe :: List.replicate (argc - 1) Sys.fork ++ [Sys.close Fd.wr]) ++ tail
          ∧ Sys.fork ∉ tail) := by
  have hnr : Sys.read ∉ (spawn env.forkOk (List.range' 1 (argc - 1))).1 := by
    intro h
    have := spawn_forks_only _ _ _ h
    cases this
  unfold main
  by_cases h1 : argc = 1
  · left; simp [h1]
  by_cases h2 : env.pipeOk = true
  swap
  · left; simp [h1, h2]
  by_cases h3 : (spawn env.forkOk (List.range' 1 (argc - 1))).2 = true
  swap
  · left; simp [h1, h2, h3, hnr]
  by_cases h4 : env.closeWriteOk = true
  swap
  · left; simp [h1, h2, h3, h4, hnr]
  right
  refine ⟨h4, ?_⟩
  have hsp := spawn_trace _ _ h3
  simp only [List.length_range'] at hsp
  simp only [h1, h2, h3, h4, if_true, if_false, hsp]
  cases env.readEnd
  · by_cases h5 : env.closeReadOk = true
    · refine ⟨List.replicate (env.records.length + 1) Sys.read ++ [Sys.close Fd.rd]
        ++ List.replicate (argc - 1) Sys.wait, ?_, ?_⟩
      · simp [h5]
      · simp [List.mem_replicate]
    · refine ⟨List.replicate (env.records.length + 1) Sys.read ++ [Sys.close Fd.rd], ?_, ?_⟩
      · simp [h5]
      · simp [List.mem_replicate]
  · refine ⟨List.replicate (env.records.length + 1) Sys.read ++ [Sys.close Fd.rd], ?_, ?_⟩
    · simp
    · simp [List.mem_replicate]

theorem split_after_head (P Q before after : List Sys) (x : Sys) (hx : x ∉ P)
    (h : before ++ x :: after = P ++ Q) : ∃ c, before = P ++ c ∧ Q = c ++ x :: after := by
  rw [List.append_eq_append_iff] at h
  rcases h with ⟨a, hP, hQ⟩ | ⟨c, hb, hQ⟩
  · rcases a with _ | ⟨y, a⟩
    · refine ⟨[], by simpa using hP.symm, by simpa using hQ.symm⟩
    · exfalso
      apply hx
      rw [hP]
      have : x = y := by
        simp only [List.cons_append] at hQ
        exact (List.cons.inj hQ).1
      rw [this]
      simp
  · exact ⟨c, hb, hQ⟩

/-- The parent calls `close` exactly once on each end of the pipe, on every path after the
pipe was created. -/
theorem parent_closes_each_end_once (argc : Nat) (env : Env) (hargc : argc ≠ 1)
    (hpipe : env.pipeOk = true) :
    (main argc env).trace.count (Sys.close Fd.wr) = 1
    ∧ (main argc env).trace.count (Sys.close Fd.rd) = 1 := by
  have hc : ∀ fd, List.count (Sys.close fd) (spawn env.forkOk (List.range' 1 (argc - 1))).1
      = 0 := by
    intro fd
    rw [List.count_eq_zero]
    intro h
    have := spawn_forks_only _ _ _ h
    cases this
  unfold main
  simp only [hargc, hpipe, if_true, if_false]
  split
  · split
    · split
      · simp [List.count_cons, List.count_append, List.count_replicate, hc]
      · split <;> simp [List.count_cons, List.count_append, List.count_replicate, hc]
    · simp [List.count_cons, List.count_append, hc]
  · simp [List.count_cons, List.count_append, hc]

/-- A child none of whose `close` calls fails calls `close` exactly once on each end. -/
theorem child_closes_each_end_once (w : WorkerEnv) (hr : w.closeReadOk = true)
    (hw : w.closeWriteOk = true) :
    (child w).trace.count (Sys.close Fd.wr) = 1
    ∧ (child w).trace.count (Sys.close Fd.rd) = 1 := by
  have ht : (process_file w.file w.writeOk).trace = []
      ∨ (process_file w.file w.writeOk).trace = [Sys.write] := by
    unfold process_file
    simp only
    split
    · left; rfl
    · split <;> right <;> rfl
  unfold child
  simp only [hr, hw, if_true]
  rcases ht with ht | ht <;> split <;> simp [ht, List.count_cons]

/-! ## The children and the parent together -/

theorem child_written (w : WorkerEnv) (hr : w.closeReadOk = true) (hw : w.writeOk = true)
    (hc : closesCleanly w.file = true) :
    (child w).written = if readable w.file then some (fileHistogram w.file) else none := by
  rcases w with ⟨cr, file, wo, cw⟩
  simp only at hr hw hc
  subst hr hw
  rcases file with _ | ⟨bytes, ending, closeOk⟩
  · simp [child, process_file, count_word_lengths_none, readable]
  · cases ending
    · simp only [closesCleanly, Bool.or_eq_true] at hc
      have hok : closeOk = true := by
        rcases hc with hc | hc
        · simp at hc
        · exact hc
      subst hok
      cases cw <;>
        simp [child, process_file, count_word_lengths_eof, readable, fileHistogram]
    · simp [child, process_file, count_word_lengths_error, readable]

theorem emitted_eq (ws : List WorkerEnv)
    (h : ∀ w ∈ ws, w.closeReadOk = true ∧ w.writeOk = true ∧ closesCleanly w.file = true) :
    emitted ws = (ws.filter (fun w => readable w.file)).map (fun w => fileHistogram w.file) := by
  induction ws with
  | nil => rfl
  | cons w ws ih =>
    have hw := h w (List.mem_cons_self _ _)
    have ih1 := ih (fun v hv => h v (List.mem_cons_of_mem _ hv))
    unfold emitted at ih1 ⊢
    rw [List.filterMap_cons, child_written w hw.1 hw.2.1 hw.2.2, ih1]
    by_cases hrd : readable w.file = true
    · simp [hrd]
    · simp [hrd]

/-! ## Whole records on the pipe -/

/-- With a read unit that differs from the size of the writes the reads deliver fragments
and mixes of two writes. -/
theorem runPipe_fragments :
    runPipe 512 [PipeEvent.write [1, 2, 3, 4], PipeEvent.write [5, 6, 7, 8],
        PipeEvent.read 3, PipeEvent.read 3] []
      = some [[1, 2, 3], [4, 5, 6]] := by
  decide

/-- The scenarios A and B of the specification, and the empty file, by evaluation. -/
theorem count_word_lengths_scenarios :
    count_word_lengths (some ⟨bytesOf "a bb ccc", StreamEnd.eof, true⟩) zeroCounts
        = (0, [1, 1, 1, 0, 0, 0, 0, 0, 0, 0, 0, 0, 0, 0, 0, 0, 0, 0, 0, 0, 0, 0, 0, 0, 0])
    ∧ count_word_lengths (some ⟨bytesOf "hello   world\n", StreamEnd.eof, true⟩) zeroCounts
        = (0, [0, 0, 0, 0, 2, 0, 0, 0, 0, 0, 0, 0, 0, 0, 0, 0, 0, 0, 0, 0, 0, 0, 0, 0, 0])
    ∧ count_word_lengths (some ⟨[], StreamEnd.eof, true⟩) zeroCounts = (0, zeroCounts) := by
  decide

/-! ## Claims -/

/-- C1: for an ASCII byte sequence `s` shorter than `2^31` bytes that is read up to end of
file, and an array of 25 `int` buckets none of which overflows, `count_word_lengths` returns
`0` (its `fclose` succeeding) and adds to bucket `k - 1`, for every `1 ≤ k ≤ 25`, exactly
the number of words of `s` of length `k`; the 25 increments add up to the number of words of
length at most 25; on the zeroed array of `process_file` bucket `k - 1` ends as that number,
with no overflow possible; and a word of more than 25 bytes standing between two whitespace
bytes can be taken out of the input without changing any bucket. -/
theorem count_word_lengths_counts_words (s : List Nat) (counts : List Int) (closeOk : Bool)
    (hascii : ∀ c ∈ s, c < 128) (hlen : s.length < 2147483648)
    (hsize : counts.length = MAX_WORD_LEN)
    (hfit : ∀ j < MAX_WORD_LEN, INT_MIN ≤ counts.getD j 0 ∧
      counts.getD j 0 + (wordsOfLength s (j + 1) : Int) ≤ INT_MAX) :
    (closeOk = true → (count_word_lengths (some ⟨s, StreamEnd.eof, closeOk⟩) counts).1 = 0)
    ∧ (∀ k, 1 ≤ k → k ≤ MAX_WORD_LEN →
        (count_word_lengths (some ⟨s, StreamEnd.eof, closeOk⟩) counts).2.getD (k - 1) 0
          = counts.getD (k - 1) 0 + (wordsOfLength s k : Int))
    ∧ ((List.range MAX_WORD_LEN).map (fun j =>
          (count_word_lengths (some ⟨s, StreamEnd.eof, closeOk⟩) counts).2.getD j 0
            - counts.getD j 0)).sum
        = (((words s).countP (fun w => decide (w.length ≤ MAX_WORD_LEN)) : Nat) : Int)
    ∧ (∀ k, 1 ≤ k → k ≤ MAX_WORD_LEN →
        (count_word_lengths (some ⟨s, StreamEnd.eof, closeOk⟩) zeroCounts).2.getD (k - 1) 0
          = (wordsOfLength s k : Int))
    ∧ (∀ (a b long : List Nat) (w1 w2 : Nat), isspace w1 = true → isspace w2 = true →
        (∀ c ∈ long, isspace c = false) → MAX_WORD_LEN < long.length →
        long.length < 2147483648 →
        (count_word_lengths (some ⟨a ++ [w1] ++ long ++ [w2] ++ b, StreamEnd.eof, closeOk⟩)
            counts).2
          = (count_word_lengths (some ⟨a ++ [w1] ++ [w2] ++ b, StreamEnd.eof, closeOk⟩)
            counts).2) := by
  have _ := hascii
  refine ⟨?_, ?_, ?_, ?_, ?_⟩
  · intro hc
    rw [count_word_lengths_eof, hc]
    rfl
  · intro k h1 hk
    have hj : k - 1 < MAX_WORD_LEN := by omega
    have := bucket_increment s closeOk counts (k - 1) hlen hj hsize
    rw [Nat.sub_add_cancel h1] at this
    have hf := hfit (k - 1) hj
    rw [Nat.sub_add_cancel h1] at hf
    exact this hf
  · rw [← sum_wordsOfLength, Nat.cast_list_sum, List.map_map]
    congr 1
    apply List.map_congr_left
    intro j hj
    rw [List.mem_range] at hj
    rw [bucket_increment s closeOk counts j hlen hj hsize (hfit j hj)]
    simp
  · intro k h1 hk
    have hj : k - 1 < MAX_WORD_LEN := by omega
    have hle := wordsOfLength_le_length s k h1
    have := bucket_increment s closeOk zeroCounts (k - 1) hlen hj
      (by simp [zeroCounts])
    rw [Nat.sub_add_cancel h1, getD_zeroCounts] at this
    rw [this]
    · simp
    · unfold INT_MIN INT_MAX; omega
  · intro a b long w1 w2 h1 h2 hword hlong hlt
    rw [count_word_lengths_eof, count_word_lengths_eof,
      readLoop_skip_long a b long w1 w2 counts h1 h2 hword hlong hlt]

/-- Witness of C1 on the text `ab`, a word of 30 bytes, `cde`. -/
theorem count_word_lengths_counts_words_witness :
    (∀ c ∈ longWordText, c < 128) ∧ longWordText.length < 2147483648
    ∧ zeroCounts.length = MAX_WORD_LEN
    ∧ (count_word_lengths (some ⟨longWordText, StreamEnd.eof, true⟩) zeroCounts).1 = 0
    ∧ (count_word_lengths (some ⟨longWordText, StreamEnd.eof, true⟩) zeroCounts).2.getD 1 0
        = zeroCounts.getD 1 0 + (wordsOfLength longWordText 2 : Int) :=
  have h := count_word_lengths_counts_words longWordText zeroCounts true (by decide) (by decide)
    (by decide) (by decide)
  ⟨by decide, by decide, by decide, h.1 rfl, h.2.1 2 (by decide) (by decide)⟩

/-- C6: at end of file a pending word is tallied exactly as a whitespace byte would do it:
the stream `s` and the stream `s` followed by a whitespace byte `w` leave the same buckets
(whatever `fclose` answers) and, for the same answer of `fclose`, the same return value; and
the file `end` gives bucket 2 the value 1 and every other bucket 0. -/
theorem eof_tallies_like_whitespace (s : List Nat) (w : Nat) (counts : List Int)
    (close1 close2 : Bool) (hw : isspace w = true) :
    (count_word_lengths (some ⟨s ++ [w], StreamEnd.eof, close1⟩) counts).2
        = (count_word_lengths (some ⟨s, StreamEnd.eof, close2⟩) counts).2
    ∧ (count_word_lengths (some ⟨s ++ [w], StreamEnd.eof, close1⟩) counts).1
        = (count_word_lengths (some ⟨s, StreamEnd.eof, close1⟩) counts).1
    ∧ count_word_lengths (some ⟨bytesOf "end", StreamEnd.eof, true⟩) zeroCounts
        = (0, [0, 0, 1, 0, 0, 0, 0, 0, 0, 0, 0, 0, 0, 0, 0, 0, 0, 0, 0, 0, 0, 0, 0, 0, 0]) := by
  refine ⟨?_, ?_, by decide⟩
  · simp only [count_word_lengths_eof, readLoop_space s w hw, tally_zero]
  · simp only [count_word_lengths_eof]

/-- Witness of C6: the text `a bb` with and without a final newline. -/
theorem eof_tallies_like_whitespace_witness :
    isspace 10 = true
    ∧ (count_word_lengths (some ⟨bytesOf "a bb" ++ [10], StreamEnd.eof, true⟩) zeroCounts).2
        = (count_word_lengths (some ⟨bytesOf "a bb", StreamEnd.eof, true⟩) zeroCounts).2 :=
  ⟨by decide, (eof_tallies_like_whitespace (bytesOf "a bb") 10 zeroCounts true true
    (by decide)).1⟩

/-- C5, counterexample: on a stream that delivers `a`, a space, and then a read error,
`count_word_lengths` returns `-1` and leaves bucket 0 at 1 in an array that was all zero. -/
theorem count_word_lengths_keeps_increments_on_error :
    (count_word_lengths (some ⟨bytesOf "a ", StreamEnd.error, true⟩) zeroCounts).1 = -1
    ∧ (count_word_lengths (some ⟨bytesOf "a ", StreamEnd.error, true⟩) zeroCounts).2
        ≠ zeroCounts := by
  decide

/-- C5, amended: `count_word_lengths` returns `-1` only when `fopen` fails, `fread` fails or
`fclose` fails.  If `fopen` failed the array is unchanged.  If `fread` failed the array is
the one the read loop built: the entry values plus the increments of the words that a
whitespace byte ended before the failure, that is the array a complete run leaves on the
bytes before the last whitespace byte delivered, and the run pending at the failure is not
tallied.  If `fclose` failed the array is the one a successful call leaves.  In every case
`process_file` returns `-1` without a `write`, so that the child puts no record on the pipe
and exits with status 1. -/
theorem failed_count_writes_nothing (file : Option Stream) (counts : List Int)
    (writeOk closeRd closeWr : Bool) (h : (count_word_lengths file counts).1 = -1) :
    (file = none → (count_word_lengths file counts).2 = counts)
    ∧ process_file file writeOk = ⟨-1, [], none⟩
    ∧ (child ⟨closeRd, file, writeOk, closeWr⟩).written = none
    ∧ (child ⟨closeRd, file, writeOk, closeWr⟩).status = 1
    ∧ (file = none ∨ (∃ bytes closeOk, file = some ⟨bytes, StreamEnd.error, closeOk⟩)
        ∨ ∃ bytes, file = some ⟨bytes, StreamEnd.eof, false⟩)
    ∧ (∀ bytes closeOk, file = some ⟨bytes, StreamEnd.error, closeOk⟩ →
        (count_word_lengths file counts).2 = (readLoop bytes 0 counts).2)
    ∧ (∀ (s pending : List Nat) (w : Nat) (closeOk : Bool), isspace w = true →
        (∀ c ∈ pending, isspace c = false) →
        file = some ⟨s ++ [w] ++ pending, StreamEnd.error, closeOk⟩ →
        (count_word_lengths file counts).2
          = (count_word_lengths (some ⟨s, StreamEnd.eof, true⟩) counts).2)
    ∧ (∀ (pending : List Nat) (closeOk : Bool), (∀ c ∈ pending, isspace c = false) →
        file = some ⟨pending, StreamEnd.error, closeOk⟩ →
        (count_word_lengths file counts).2 = counts)
    ∧ (∀ bytes, file = some ⟨bytes, StreamEnd.eof, false⟩ →
        (count_word_lengths file counts).2
          = (count_word_lengths (some ⟨bytes, StreamEnd.eof, true⟩) counts).2) := by
  have hz : (count_word_lengths file zeroCounts).1 ≠ 0 := by
    rw [count_word_lengths_ret_indep file zeroCounts counts, h]; decide
  have hp := process_file_of_error file writeOk hz
  refine ⟨?_, hp, ?_, ?_, ?_, ?_, ?_, ?_, ?_⟩
  · intro hf; rw [hf]; rfl
  · cases closeRd <;> simp [child, hp]
  · cases closeRd <;> simp [child, hp]
  · rcases file with _ | ⟨bytes, ending, closeOk⟩
    · exact Or.inl rfl
    · cases ending
      · cases closeOk
        · exact Or.inr (Or.inr ⟨bytes, rfl⟩)
        · rw [count_word_lengths_eof] at h
          simp at h
      · exact Or.inr (Or.inl ⟨bytes, closeOk, rfl⟩)
  · intro bytes closeOk hf
    rw [hf, count_word_lengths_error]
  · intro s pending w closeOk hw hpend hf
    rw [hf, count_word_lengths_error, count_word_lengths_eof, List.append_assoc,
      readLoop_append]
    simp only [List.singleton_append, readLoop, hw, if_true]
    exact readLoop_counts_of_word pending _ _ hpend
  · intro pending closeOk hpend hf
    rw [hf, count_word_lengths_error, readLoop_counts_of_word pending _ _ hpend]
  · intro bytes hf
    rw [hf, count_word_lengths_eof, count_word_lengths_eof]

/-- Witness of C5, amended: the stream that fails after `a` and a space, then after `bb`;
and the array that a failed `fclose` leaves on `a bb ccc`. -/
theorem failed_count_writes_nothing_witness :
    (count_word_lengths (some ⟨bytesOf "a bb", StreamEnd.error, true⟩) zeroCounts).1 = -1
    ∧ process_file (some ⟨bytesOf "a bb", StreamEnd.error, true⟩) true = ⟨-1, [], none⟩
    ∧ (count_word_lengths (some ⟨bytesOf "a bb", StreamEnd.error, true⟩) zeroCounts).2
        = (count_word_lengths (some ⟨bytesOf "a", StreamEnd.eof, true⟩) zeroCounts).2
    ∧ (count_word_lengths (some ⟨bytesOf "a bb", StreamEnd.error, true⟩) zeroCounts).2
        = [1, 0, 0, 0, 0, 0, 0, 0, 0, 0, 0, 0, 0, 0, 0, 0, 0, 0, 0, 0, 0, 0, 0, 0, 0]
    ∧ count_word_lengths (some ⟨bytesOf "a bb ccc", StreamEnd.eof, false⟩) zeroCounts
        = (-1, [1, 1, 1, 0, 0, 0, 0, 0, 0, 0, 0, 0, 0, 0, 0, 0, 0, 0, 0, 0, 0, 0, 0, 0, 0]) :=
  have h := failed_count_writes_nothing (some ⟨bytesOf "a bb", StreamEnd.error, true⟩)
    zeroCounts true true true (by decide)
  ⟨by decide, h.2.1,
    h.2.2.2.2.2.2.1 (bytesOf "a") (bytesOf "bb") 32 true (by decide) (by decide) (by decide),
    by decide, by decide⟩

/-- C4: the drain loop does not depend on the order of arrival: for records of 25 entries,
folding the loop body from the zero histogram over a list and over any permutation of it
gives the same histogram of 25 entries; entry `i` is the sum of the entries `i` of the
records, reduced to the range of `int`, hence that sum itself when it fits an `int`. -/
theorem drain_order_independent (recs arrival : List (List Int))
    (hrec : ∀ r ∈ recs, r.length = MAX_WORD_LEN) (hperm : recs.Perm arrival) :
    drain zeroCounts arrival = drain zeroCounts recs
    ∧ (drain zeroCounts recs).length = MAX_WORD_LEN
    ∧ (∀ i < MAX_WORD_LEN, (drain zeroCounts recs).getD i 0
        = wrapInt ((recs.map (fun r => r.getD i 0)).sum))
    ∧ (∀ i < MAX_WORD_LEN, INT_MIN ≤ (recs.map (fun r => r.getD i 0)).sum →
        (recs.map (fun r => r.getD i 0)).sum ≤ INT_MAX →
        (drain zeroCounts recs).getD i 0 = (recs.map (fun r => r.getD i 0)).sum) := by
  have _ := hrec
  refine ⟨(drain_perm recs arrival hperm).symm, length_drain _ _ (by simp [zeroCounts]),
    fun i hi => getD_drain_zero recs i hi, ?_⟩
  intro i hi h1 h2
  unfold INT_MIN at h1
  unfold INT_MAX at h2
  rw [getD_drain_zero recs i hi, wrapInt_of_fits] <;> omega

/-- Witness of C4: three records and their arrival in another order. -/
theorem drain_order_independent_witness :
    (∀ r ∈ [zeroCounts, List.replicate 25 1, List.replicate 25 2], r.length = MAX_WORD_LEN)
    ∧ drain zeroCounts [List.replicate 25 2, zeroCounts, List.replicate 25 1]
        = drain zeroCounts [zeroCounts, List.replicate 25 1, List.replicate 25 2] :=
  ⟨by decide, (drain_order_independent [zeroCounts, List.replicate 25 1, List.replicate 25 2]
    [List.replicate 25 2, zeroCounts, List.replicate 25 1] (by decide) (by decide)).1⟩

/-- C3: with two files, the second of which does not exist, the second child exits with
status 1 and the wait loop sets `ret_val` to 1, yet `main` returns 0: it ends with
`return 0`, not with `return ret_val`. -/
theorem main_returns_zero_after_failed_child :
    (child missingWorker).status = 1
    ∧ missingFileRun.status 2 = WaitStatus.exited 1
    ∧ join missingFileRun.status 2 = 1
    ∧ (main 3 missingFileRun).status = 0 := by
  decide

/-- C8: a child whose `close(pipe_fds[0])` fails calls `close` twice on the read end and
never on the write end; a child whose `close(pipe_fds[1])` fails calls `close` twice on the
write end. -/
theorem child_close_failure_paths :
    (child ⟨false, goodWorker.file, true, true⟩).trace = [Sys.close Fd.rd, Sys.close Fd.rd]
    ∧ (child ⟨false, goodWorker.file, true, true⟩).trace.count (Sys.close Fd.wr) = 0
    ∧ (child ⟨true, goodWorker.file, true, false⟩).trace
        = [Sys.close Fd.rd, Sys.write, Sys.close Fd.wr, Sys.close Fd.wr]
    ∧ (child ⟨true, goodWorker.file, true, false⟩).trace.count (Sys.close Fd.wr) = 2 := by
  decide

/-- The exit status of a parent none of whose own calls fails is 0, whatever the children
report to `wait`. -/
theorem main_status_ignores_children (argc : Nat) (env : Env) (hargc : argc ≠ 1)
    (hpipe : env.pipeOk = true) (hfork : ∀ i, 1 ≤ i → i < argc → env.forkOk i = true)
    (hclw : env.closeWriteOk = true) (hread : env.readEnd = StreamEnd.eof)
    (hclr : env.closeReadOk = true) : (main argc env).status = 0 := by
  rw [main_of_no_failure argc env hargc hpipe hfork hclw hread hclr]

/-- C10: the parent never reads from the pipe while it holds its write end.  Whenever a
`read` occurs in the calls of `main`, the calls before it start with `pipe`, the `argc - 1`
forks and the parent's `close(pipe_fds[1])`, that `close` succeeded, and no fork comes
later.  When that `close` fails (after a successful `pipe` and successful forks) the parent
closes the read end and returns 1 without any `read`. -/
theorem read_only_after_write_end_closed (argc : Nat) (env : Env) :
    (∀ before after : List Sys, (main argc env).trace = before ++ Sys.read :: after →
      env.closeWriteOk = true
      ∧ (∃ rest, before
          = Sys.pipe :: List.replicate (argc - 1) Sys.fork ++ [Sys.close Fd.wr] ++ rest
            ∧ Sys.fork ∉ rest)
      ∧ before.count Sys.fork = argc - 1
      ∧ Sys.close Fd.wr ∈ before
      ∧ Sys.fork ∉ after)
    ∧ (argc ≠ 1 → env.pipeOk = true → (∀ i, 1 ≤ i → i < argc → env.forkOk i = true) →
        env.closeWriteOk = false →
        (main argc env).trace
            = Sys.pipe :: List.replicate (argc - 1) Sys.fork
                ++ [Sys.close Fd.wr, Sys.close Fd.rd]
          ∧ Sys.read ∉ (main argc env).trace
          ∧ (main argc env).status = 1) := by
  constructor
  · intro before after h
    rcases main_trace_shape argc env with hno | ⟨hclw, tail, htr, hft⟩
    · exfalso; apply hno; rw [h]; simp
    · rw [htr] at h
      obtain ⟨c, hb, hQ⟩ := split_after_head
        (Sys.pipe :: List.replicate (argc - 1) Sys.fork ++ [Sys.close Fd.wr]) tail before
        after Sys.read (by simp [List.mem_replicate]) h.symm
      have hfc : Sys.fork ∉ c := by
        intro hc; apply hft; rw [hQ]; simp [hc]
      have hfa : Sys.fork ∉ after := by
        intro hc; apply hft; rw [hQ]; simp [hc]
      refine ⟨hclw, ⟨c, hb, hfc⟩, ?_, ?_, hfa⟩
      · rw [hb]
        simp [List.count_cons, List.count_append, List.count_replicate,
          List.count_eq_zero.2 hfc]
      · rw [hb]; simp
  · intro h1 h2 h3 h4
    have hsp : spawn env.forkOk (List.range' 1 (argc - 1))
        = (List.replicate (argc - 1) Sys.fork, true) := by
      have := spawn_ok env.forkOk (List.range' 1 (argc - 1)) (by
        intro i hi
        rw [List.mem_range'_1] at hi
        exact h3 i hi.1 (by omega))
      simpa using this
    unfold main
    simp [h1, h2, h4, hsp, List.mem_replicate]

/-- Witness of C10: the first `read` of the run on two files, and the run in which the
parent fails to close its write end. -/
theorem read_only_after_write_end_closed_witness :
    ((main 3 missingFileRun).trace
        = [Sys.pipe, Sys.fork, Sys.fork, Sys.close Fd.wr] ++ Sys.read
            :: [Sys.read, Sys.close Fd.rd, Sys.wait, Sys.wait]
      ∧ missingFileRun.closeWriteOk = true
      ∧ List.count Sys.fork [Sys.pipe, Sys.fork, Sys.fork, Sys.close Fd.wr] = 3 - 1)
    ∧ (closeFailureRun.closeWriteOk = false
      ∧ (main 3 closeFailureRun).trace
        = Sys.pipe :: List.replicate (3 - 1) Sys.fork ++ [Sys.close Fd.wr, Sys.close Fd.rd]) :=
  have h1 : (main 3 missingFileRun).trace
      = [Sys.pipe, Sys.fork, Sys.fork, Sys.close Fd.wr] ++ Sys.read
          :: [Sys.read, Sys.close Fd.rd, Sys.wait, Sys.wait] := by decide
  have a := (read_only_after_write_end_closed 3 missingFileRun).1 _ _ h1
  have b := (read_only_after_write_end_closed 3 closeFailureRun).2 (by decide) rfl
    (fun _ _ _ => rfl) rfl
  ⟨⟨h1, a.1, a.2.2.1⟩, rfl, b.1⟩

/-- C2: when no call of the parent fails and, in every child, `close`, `write` and `fclose`
do not fail, then for every order in which the records of the children arrive, the
histogram that the parent prints is, entry by entry, the sum (reduced to the range of `int`,
hence the sum itself when it fits) of the histograms of exactly the files that open and read
up to their end; a child whose file fails to open or to read writes no record; and the
parent prints exactly 25 lines, line `k` being `<k>-Character Words: ` followed by that sum
for bucket `k - 1`. -/
theorem parent_sums_readable_files (argc : Nat) (env : Env) (ws : List WorkerEnv)
    (hargc : argc = ws.length + 1) (hne : ws ≠ [])
    (hpipe : env.pipeOk = true) (hfork : ∀ i, 1 ≤ i → i < argc → env.forkOk i = true)
    (hclw : env.closeWriteOk = true) (hread : env.readEnd = StreamEnd.eof)
    (hclr : env.closeReadOk = true)
    (hworkers : ∀ w ∈ ws,
      w.closeReadOk = true ∧ w.writeOk = true ∧ closesCleanly w.file = true)
    (harrive : env.records.Perm (emitted ws)) :
    (main argc env).stdout = report (drain zeroCounts env.records)
    ∧ (drain zeroCounts env.records).length = MAX_WORD_LEN
    ∧ (∀ j < MAX_WORD_LEN,
        (drain zeroCounts env.records).getD j 0 = wrapInt (readableSum ws j))
    ∧ (∀ j < MAX_WORD_LEN, INT_MIN ≤ readableSum ws j → readableSum ws j ≤ INT_MAX →
        (drain zeroCounts env.records).getD j 0 = readableSum ws j)
    ∧ (∀ w ∈ ws, readable w.file = false →
        (child w).written = none ∧ process_file w.file w.writeOk = ⟨-1, [], none⟩)
    ∧ (main argc env).stdout.length = 25
    ∧ (∀ k, 1 ≤ k → k ≤ 25 →
        (main argc env).stdout[k - 1]?
          = some (toString k ++ "-Character Words: "
              ++ toString (wrapInt (readableSum ws (k - 1))) ++ "\n")) := by
  have hargc1 : argc ≠ 1 := by
    cases ws with
    | nil => exact absurd rfl hne
    | cons w ws => simp at hargc; omega
  have hsum : ∀ j < MAX_WORD_LEN,
      (drain zeroCounts env.records).getD j 0 = wrapInt (readableSum ws j) := by
    intro j hj
    rw [getD_drain_zero _ j hj, (harrive.map (fun r => r.getD j 0)).sum_eq,
      emitted_eq ws hworkers, List.map_map]
    rfl
  have hmain := main_of_no_failure argc env hargc1 hpipe hfork hclw hread hclr
  refine ⟨?_, length_drain _ _ (by simp [zeroCounts]), hsum, ?_, ?_, ?_, ?_⟩
  · rw [hmain]
  · intro j hj h1 h2
    unfold INT_MIN at h1
    unfold INT_MAX at h2
    rw [hsum j hj, wrapInt_of_fits] <;> omega
  · intro w hw hrd
    obtain ⟨h1, h2, h3⟩ := hworkers w hw
    have hwr := child_written w h1 h2 h3
    rw [hrd] at hwr
    refine ⟨by simpa using hwr, ?_⟩
    apply process_file_of_error
    rcases w with ⟨cr, file, wo, cw⟩
    rcases file with _ | ⟨bytes, ending, closeOk⟩
    · rw [count_word_lengths_none]; simp
    · cases ending
      · simp [readable] at hrd
      · rw [count_word_lengths_error]; simp
  · rw [hmain]
    exact length_report _
  · intro k h1 hk
    have hj : k - 1 < MAX_WORD_LEN := by
      have h25 : MAX_WORD_LEN = 25 := rfl
      omega
    rw [hmain]
    show (report (drain zeroCounts env.records))[k - 1]? = _
    rw [report_line _ k h1 hk, ← hsum (k - 1) hj]
    rfl

/-- Witness of C2: two files, the second of which does not exist. -/
theorem parent_sums_readable_files_witness :
    (3 = [goodWorker, missingWorker].length + 1)
    ∧ (∀ w ∈ [goodWorker, missingWorker],
        w.closeReadOk = true ∧ w.writeOk = true ∧ closesCleanly w.file = true)
    ∧ missingFileRun.records.Perm (emitted [goodWorker, missingWorker])
    ∧ (main 3 missingFileRun).stdout = report (drain zeroCounts missingFileRun.records)
    ∧ (drain zeroCounts missingFileRun.records).getD 1 0
        = wrapInt (readableSum [goodWorker, missingWorker] 1)
    ∧ (main 3 missingFileRun).stdout.length = 25
    ∧ (main 3 missingFileRun).stdout[2 - 1]?
        = some (toString 2 ++ "-Character Words: "
            ++ toString (wrapInt (readableSum [goodWorker, missingWorker] (2 - 1))) ++ "\n") :=
  have h := parent_sums_readable_files 3 missingFileRun [goodWorker, missingWorker] rfl
    (by decide) rfl (fun _ _ _ => rfl) rfl rfl rfl (by decide) (List.Perm.refl _)
  ⟨rfl, by decide, List.Perm.refl _, h.1, h.2.2.1 1 (by decide), h.2.2.2.2.2.1,
    h.2.2.2.2.2.2 2 (by decide) (by decide)⟩

end ParWordLengths
